import Mathlib

/-!
# Verification of the strudel-lsp-server protocol core

Shallow embedding of `src/server/src/server.ts`: the diagnostics engine
(`validateTextDocument`), the document position/offset conversion of the
text-document utility it calls, capability negotiation (`onInitialize`),
the per-document settings cache (`getDocumentSettings`,
`onDidChangeConfiguration`), the diagnostics pull handler and the
completion resolver.  Text is modelled as `List Char` with character
offsets standing in for the string indices of the source.
-/

namespace Strudel

/-! ## Character classes

`isWordChar` is the word-character class `\w = [A-Za-z0-9_]` used by the
word-boundary assertion `\b` of the validator's pattern; `Char.isAlpha`
and `Char.isDigit` are the corresponding ASCII ranges.  `isUppercaseLetter`
is the pattern's character class `[A-Z]`. -/

def isWordChar (c : Char) : Bool :=
  c.isAlpha || c.isDigit || c == '_'

def isUppercaseLetter (c : Char) : Bool :=
  'A' ≤ c && c ≤ 'Z'

/-- The line-break characters recognised by the text-document utility. -/
def isEOLChar (c : Char) : Bool :=
  c == '\n' || c == '\r'

/-! ## The validator's pattern `/\b[A-Z]{2,}\b/g`

`scanMatchesAux` mimics the repeated `pattern.exec(text)` calls of
`validateTextDocument`: from the current index, the regex engine succeeds
exactly when the word-boundary assertion holds before the index (previous
character absent or not a word character), the greedy run of consecutive
`[A-Z]` characters starting there has length at least 2, and the
word-boundary assertion holds after the run (end of text or a non-word
character); backtracking to a shorter run can never succeed because the
position between two uppercase letters is not a word boundary.  On
success the engine resumes after the match (`lastIndex`); on failure it
retries at the next index.  The fuel argument is an upper bound on the
remaining text length; each step consumes at least one character. -/

def upperRunLength : List Char → Nat
  | [] => 0
  | c :: rest => if isUppercaseLetter c then upperRunLength rest + 1 else 0

def boundaryBefore : Option Char → Bool
  | none => true
  | some c => !isWordChar c

def boundaryAfterRun : List Char → Bool
  | [] => true
  | c :: _ => !isWordChar c

def scanMatchesAux : Nat → List Char → Nat → Option Char → List (Nat × Nat)
  | 0, _, _, _ => []
  | _ + 1, [], _, _ => []
  | fuel + 1, c :: rest, i, prev =>
    if boundaryBefore prev = true ∧ 2 ≤ upperRunLength (c :: rest) ∧
        boundaryAfterRun (List.drop (upperRunLength (c :: rest)) (c :: rest)) = true then
      (i, upperRunLength (c :: rest)) ::
        scanMatchesAux fuel (List.drop (upperRunLength (c :: rest)) (c :: rest))
          (i + upperRunLength (c :: rest))
          (some ((c :: rest).getD (upperRunLength (c :: rest) - 1) c))
    else
      scanMatchesAux fuel rest (i + 1) (some c)

/-- All matches of `/\b[A-Z]{2,}\b/g` over a text, as (index, length)
pairs, in the order `pattern.exec` produces them. -/
def matchesOf (text : List Char) : List (Nat × Nat) :=
  scanMatchesAux text.length text 0 none

/-! ## Spec-side match count

A second definition following the specification's words: `matchCount(D)`
"counts the non-overlapping whole-word runs of two or more consecutive
uppercase letters".  A whole word is a maximal run of word characters;
it counts when it is at least two characters long and consists only of
uppercase letters. -/

def wordsOf (cs : List Char) : List (List Char) :=
  match cs with
  | [] => []
  | c :: rest =>
    if isWordChar c then
      ((c :: rest).takeWhile isWordChar) :: wordsOf ((c :: rest).dropWhile isWordChar)
    else
      wordsOf rest
termination_by cs.length
decreasing_by
  · simp only [List.dropWhile_cons, *, if_pos]
    have := (@List.dropWhile_sublist Char rest isWordChar).length_le
    simp only [List.length_cons]
    omega
  · simp

def qualifiesWord (w : List Char) : Bool :=
  decide (2 ≤ w.length) && w.all isUppercaseLetter

/-- Modelled from the spec: `matchCount(D)` counts the non-overlapping
whole-word runs of two or more consecutive uppercase letters. -/
def matchCountSpec (cs : List Char) : Nat :=
  (wordsOf cs).countP qualifiesWord

/-! ## Positions and the document offset table

`Position`, `Range` and `computeLineOffsets` / `positionAt` / `offsetAt`
model the text-document utility (the `vscode-languageserver-textdocument`
dependency) through which `validateTextDocument` converts character
offsets to line/character positions: line starts are recorded after every
`\r\n`, `\r` or `\n`, `positionAt` finds the last line start at or before
the (clamped) offset and `offsetAt` is its inverse, both clamping an
offset that would land inside a line break via `ensureBeforeEOL`. -/

structure Position where
  line : Nat
  character : Nat
deriving DecidableEq, Repr

structure Range where
  start : Position
  «end» : Position
deriving DecidableEq, Repr

def computeLineOffsetsAux : List Char → Nat → List Nat
  | [], _ => []
  | [c], i =>
    if c = '\r' ∨ c = '\n' then [i + 1] else []
  | c :: d :: rest, i =>
    if c = '\r' then
      if d = '\n' then
        (i + 2) :: computeLineOffsetsAux rest (i + 2)
      else
        (i + 1) :: computeLineOffsetsAux (d :: rest) (i + 1)
    else if c = '\n' then
      (i + 1) :: computeLineOffsetsAux (d :: rest) (i + 1)
    else
      computeLineOffsetsAux (d :: rest) (i + 1)

def computeLineOffsets (text : List Char) : List Nat :=
  0 :: computeLineOffsetsAux text 0

def ensureBeforeEOL (text : List Char) : Nat → Nat → Nat
  | 0, _ => 0
  | o + 1, lineStart =>
    if lineStart < o + 1 ∧ isEOLChar (text.getD o ' ') = true then
      ensureBeforeEOL text o lineStart
    else
      o + 1

def positionAt (text : List Char) (offset : Nat) : Position :=
  let o := min offset text.length
  let offs := computeLineOffsets text
  let before := offs.takeWhile (fun s => decide (s ≤ o))
  let lineStart := before.getLastD 0
  ⟨before.length - 1, ensureBeforeEOL text o lineStart - lineStart⟩

def offsetAt (text : List Char) (pos : Position) : Nat :=
  let offs := computeLineOffsets text
  if pos.line < offs.length then
    let lineStart := offs.getD pos.line 0
    if pos.character = 0 then
      lineStart
    else
      let nextLineStart :=
        if pos.line + 1 < offs.length then offs.getD (pos.line + 1) 0 else text.length
      ensureBeforeEOL text (min (lineStart + pos.character) nextLineStart) lineStart
  else
    text.length

/-! ## Diagnostics -/

inductive Severity where
  | error
  | warning
  | information
  | hint
deriving DecidableEq, Repr

structure Location where
  uri : String
  range : Range
deriving DecidableEq, Repr

structure RelatedInfo where
  location : Location
  message : String
deriving DecidableEq, Repr

structure Diagnostic where
  severity : Severity
  range : Range
  message : String
  source : String
  relatedInformation : Option (List RelatedInfo)
deriving DecidableEq, Repr

def defaultDiagnostic : Diagnostic :=
  ⟨.warning, ⟨⟨0, 0⟩, ⟨0, 0⟩⟩, "", "", none⟩

structure TextDocument where
  uri : String
  text : List Char
deriving DecidableEq, Repr

structure StrudelSettings where
  maxErrorCount : Nat
deriving DecidableEq, Repr

/-- Used when the `workspace/configuration` request is not supported. -/
def defaultSettings : StrudelSettings :=
  ⟨100⟩

/-- The body of `validateTextDocument` after the settings have been
awaited: the `while ((m = pattern.exec(text)) && (errors < settings.maxErrorCount))`
loop pushes one diagnostic per match until the cap is reached, i.e. it
emits the first `maxErrorCount` matches in scan order.  The negotiated
related-information capability decides whether the two fixed
related-information entries are attached. -/
def validateTextDocument (hasRelatedInfoCap : Bool) (doc : TextDocument)
    (settings : StrudelSettings) : List Diagnostic :=
  ((matchesOf doc.text).take settings.maxErrorCount).map (fun m =>
    let range : Range := ⟨positionAt doc.text m.1, positionAt doc.text (m.1 + m.2)⟩
    { severity := .warning
      range := range
      message := String.mk ((doc.text.drop m.1).take m.2) ++ " is all uppercase."
      source := "strudel"
      relatedInformation :=
        if hasRelatedInfoCap then
          some [⟨⟨doc.uri, range⟩, "Spelling matters"⟩,
                ⟨⟨doc.uri, range⟩, "Especially for names"⟩]
        else
          none })

/-! ## Capability negotiation (`conn.onInitialize`)

The client's capability payload: every field is optional (`Option`),
modelling absent fields; the JavaScript truthiness tests
`!!(capabilities.workspace && ...)` default every absent field to
`false`.  All functions are total, so no payload raises an error. -/

structure WorkspaceClientCapabilities where
  configuration : Option Bool
  workspaceFolders : Option Bool
deriving DecidableEq, Repr

structure PublishDiagnosticsClientCapabilities where
  relatedInformation : Option Bool
deriving DecidableEq, Repr

structure TextDocumentClientCapabilities where
  publishDiagnostics : Option PublishDiagnosticsClientCapabilities
deriving DecidableEq, Repr

structure ClientCapabilities where
  workspace : Option WorkspaceClientCapabilities
  textDocument : Option TextDocumentClientCapabilities
deriving DecidableEq, Repr

def negotiateConfiguration (caps : ClientCapabilities) : Bool :=
  match caps.workspace with
  | none => false
  | some w => w.configuration.getD false

def negotiateWorkspaceFolder (caps : ClientCapabilities) : Bool :=
  match caps.workspace with
  | none => false
  | some w => w.workspaceFolders.getD false

def negotiateRelatedInformation (caps : ClientCapabilities) : Bool :=
  match caps.textDocument with
  | none => false
  | some td =>
    match td.publishDiagnostics with
    | none => false
    | some pd => pd.relatedInformation.getD false

/-! ## Session state and the settings cache

`documentSettings` maps a URI to the still-possibly-pending
configuration-pull handle stored for it (`documentSettings.set`); a
handle is identified by the ordinal of the outbound
`conn.workspace.getConfiguration` request that created it, so
`nextRequestId` counts the outbound pulls issued so far.  A lookup
result is either the immediately-resolved global settings
(`Promise.resolve(globalSettings)`) or such a pending handle. -/

inductive SettingsHandle where
  | resolved (s : StrudelSettings)
  | pending (requestId : Nat)
deriving DecidableEq, Repr

structure SessionState where
  hasConfigurationCapability : Bool
  hasWorkspaceFolderCapability : Bool
  hasDiagnosticRelatedInformationCapability : Bool
  globalSettings : StrudelSettings
  documentSettings : List (String × Nat)
  nextRequestId : Nat
deriving DecidableEq, Repr

/-- The session state right after `conn.onInitialize` ran the capability
negotiation: flags as negotiated, global settings at their default, the
settings cache empty, no outbound pull issued yet. -/
def initialState (caps : ClientCapabilities) : SessionState :=
  { hasConfigurationCapability := negotiateConfiguration caps
    hasWorkspaceFolderCapability := negotiateWorkspaceFolder caps
    hasDiagnosticRelatedInformationCapability := negotiateRelatedInformation caps
    globalSettings := defaultSettings
    documentSettings := []
    nextRequestId := 0 }

/-- `getDocumentSettings(resource)`: without the configuration
capability, resolve immediately to the global settings; otherwise answer
from the cache, or issue one outbound configuration pull, cache its
handle and return it. -/
def getDocumentSettings (st : SessionState) (resource : String) :
    SettingsHandle × SessionState :=
  if st.hasConfigurationCapability = false then
    (.resolved st.globalSettings, st)
  else
    match st.documentSettings.lookup resource with
    | some id => (.pending id, st)
    | none =>
      (.pending st.nextRequestId,
        { st with
            documentSettings := (resource, st.nextRequestId) :: st.documentSettings
            nextRequestId := st.nextRequestId + 1 })

/-- `conn.onDidChangeConfiguration`: with the configuration capability,
clear the whole settings cache; without it, replace the global settings
by `change.settings.strudelLanguageServer || defaultSettings` (`none`
models an absent/falsy payload).  The subsequent
`conn.languages.diagnostics.refresh()` call does not touch this state. -/
def onDidChangeConfiguration (st : SessionState)
    (changeSettings : Option StrudelSettings) : SessionState :=
  if st.hasConfigurationCapability = true then
    { st with documentSettings := [] }
  else
    { st with globalSettings := changeSettings.getD defaultSettings }

/-- `documents.onDidClose`: drop the closed document's cache entry. -/
def onDidClose (st : SessionState) (uri : String) : SessionState :=
  { st with documentSettings := st.documentSettings.filter (fun e => ¬(e.1 = uri)) }

/-- The inbound events that mutate the session state after
initialization. -/
inductive Event where
  | didChangeConfiguration (payload : Option StrudelSettings)
  | getSettings (uri : String)
  | didClose (uri : String)

def step (st : SessionState) : Event → SessionState
  | .didChangeConfiguration payload => onDidChangeConfiguration st payload
  | .getSettings uri => (getDocumentSettings st uri).2
  | .didClose uri => onDidClose st uri

/-! ## The diagnostics pull handler (`conn.languages.diagnostics.on`) -/

inductive ReportKind where
  | full
  | unchanged
deriving DecidableEq, Repr

structure DocumentDiagnosticReport where
  kind : ReportKind
  items : List Diagnostic
deriving DecidableEq, Repr

/-- The handler: a known document is validated (with its awaited
settings, abstracted by `settingsOf`), an unknown one yields a full
report with no items; both branches return successfully. -/
def handleDiagnosticPull (hasRelatedInfoCap : Bool)
    (store : List (String × TextDocument)) (settingsOf : String → StrudelSettings)
    (uri : String) : DocumentDiagnosticReport :=
  match store.lookup uri with
  | some doc => ⟨.full, validateTextDocument hasRelatedInfoCap doc (settingsOf uri)⟩
  | none => ⟨.full, []⟩

/-! ## Completion (`conn.onCompletion`, `conn.onCompletionResolve`) -/

structure CompletionItem where
  label : String
  kind : Option Nat
  data : Option Int
  detail : Option String
  documentation : Option String
deriving DecidableEq, Repr

/-- `conn.onCompletion` ignores the position and always returns the same
two candidates (`CompletionItemKind.Text = 1`). -/
def onCompletion : List CompletionItem :=
  [⟨"TypeScript", some 1, some 1, none, none⟩,
   ⟨"JavaScript", some 1, some 2, none, none⟩]

/-- `conn.onCompletionResolve`: attach the fixed detail/documentation for
the opaque identifiers `1` and `2`, return any other item unchanged. -/
def onCompletionResolve (item : CompletionItem) : CompletionItem :=
  if item.data = some 1 then
    { item with
        detail := some "TypeScript details"
        documentation := some "TypeScript documentation" }
  else if item.data = some 2 then
    { item with
        detail := some "JavaScript details"
        documentation := some "JavaScript documentation" }
  else
    item

/-! ## Lemmas: uppercase runs, words and the match condition -/

theorem isWordChar_of_upper {c : Char} (h : isUppercaseLetter c = true) :
    isWordChar c = true := by
  simp only [isUppercaseLetter, Bool.and_eq_true, decide_eq_true_eq] at h
  simp only [isWordChar, Char.isAlpha, Char.isUpper, Bool.or_eq_true]
  refine .inl (.inl (.inl ?_))
  rw [Bool.and_eq_true, decide_eq_true_eq, decide_eq_true_eq]
  exact ⟨h.1, h.2⟩

theorem upperRunLength_eq_takeWhile (cs : List Char) :
    upperRunLength cs = (cs.takeWhile isUppercaseLetter).length := by
  induction cs with
  | nil => rfl
  | cons c rest ih =>
    by_cases h : isUppercaseLetter c = true
    · simp [upperRunLength, List.takeWhile_cons, h, ih]
    · simp only [Bool.not_eq_true] at h
      simp [upperRunLength, List.takeWhile_cons, h]

theorem upperRunLength_le (cs : List Char) : upperRunLength cs ≤ cs.length := by
  rw [upperRunLength_eq_takeWhile]
  exact ( List.takeWhile_prefix _).sublist.length_le

theorem upper_of_lt_upperRunLength {cs : List Char} {j : Nat}
    (h : j < upperRunLength cs) : isUppercaseLetter (cs.getD j ' ') = true := by
  induction cs generalizing j with
  | nil => simp [upperRunLength] at h
  | cons c rest ih =>
    by_cases hc : isUppercaseLetter c = true
    · cases j with
      | zero => simpa using hc
      | succ j =>
        simp only [upperRunLength, hc, if_pos] at h
        exact ih (by omega)
    · simp only [Bool.not_eq_true] at hc
      simp [upperRunLength, hc] at h

theorem drop_length_takeWhile {α : Type} (p : α → Bool) (cs : List α) :
    cs.drop (cs.takeWhile p).length = cs.dropWhile p := by
  induction cs with
  | nil => rfl
  | cons c rest ih =>
    by_cases h : p c = true
    · simp [List.takeWhile_cons, List.dropWhile_cons, h, ih]
    · simp only [Bool.not_eq_true] at h
      simp [List.takeWhile_cons, List.dropWhile_cons, h]

theorem takeWhile_word_eq_upper_of_afterRun {cs : List Char}
    (h : boundaryAfterRun (cs.drop (upperRunLength cs)) = true) :
    cs.takeWhile isWordChar = cs.takeWhile isUppercaseLetter := by
  induction cs with
  | nil => rfl
  | cons c rest ih =>
    by_cases hc : isUppercaseLetter c = true
    · have hw := isWordChar_of_upper hc
      simp only [upperRunLength, hc, if_pos, List.drop_succ_cons] at h
      simp [List.takeWhile_cons, hw, hc, ih h]
    · simp only [Bool.not_eq_true] at hc
      rw [show upperRunLength (c :: rest) = 0 from by simp [upperRunLength, hc],
        List.drop_zero] at h
      have hw : isWordChar c = false := by
        simpa [boundaryAfterRun] using h
      simp [List.takeWhile_cons, hw, hc]

theorem takeWhile_upper_eq_word_of_all {cs : List Char}
    (h : (cs.takeWhile isWordChar).all isUppercaseLetter = true) :
    cs.takeWhile isUppercaseLetter = cs.takeWhile isWordChar := by
  induction cs with
  | nil => rfl
  | cons c rest ih =>
    by_cases hw : isWordChar c = true
    · simp only [List.takeWhile_cons, hw, if_pos, List.all_cons, Bool.and_eq_true] at h
      simp [List.takeWhile_cons, hw, h.1, ih h.2]
    · have hc : isUppercaseLetter c = false := by
        cases hu : isUppercaseLetter c with
        | false => rfl
        | true => exact absurd (isWordChar_of_upper hu) (by simp [hw])
      simp only [Bool.not_eq_true] at hw
      simp [List.takeWhile_cons, hw, hc]

theorem match_cond_iff_qualifies (cs : List Char) :
    (2 ≤ upperRunLength cs ∧
      boundaryAfterRun (cs.drop (upperRunLength cs)) = true) ↔
    qualifiesWord (cs.takeWhile isWordChar) = true := by
  constructor
  · rintro ⟨hlen, hafter⟩
    have heq := takeWhile_word_eq_upper_of_afterRun hafter
    rw [qualifiesWord, Bool.and_eq_true, decide_eq_true_eq, heq,
      ← upperRunLength_eq_takeWhile]
    refine ⟨hlen, ?_⟩
    rw [List.all_eq_true]
    intro x hx
    exact List.mem_takeWhile_imp hx
  · intro hq
    rw [qualifiesWord, Bool.and_eq_true, decide_eq_true_eq] at hq
    have heq := takeWhile_upper_eq_word_of_all hq.2
    constructor
    · rw [upperRunLength_eq_takeWhile, heq]
      exact hq.1
    · rw [upperRunLength_eq_takeWhile, heq, drop_length_takeWhile]
      cases hd : cs.dropWhile isWordChar with
      | nil => rfl
      | cons d rest =>
        have : isWordChar ((cs.dropWhile isWordChar).head (by simp [hd])) = false :=
          List.head_dropWhile_not isWordChar cs (by simp [hd])
        simp only [hd, List.head_cons] at this
        simp [boundaryAfterRun, this]

theorem drop_upperRunLength_eq_dropWhile {cs : List Char}
    (hafter : boundaryAfterRun (cs.drop (upperRunLength cs)) = true) :
    cs.drop (upperRunLength cs) = cs.dropWhile isWordChar := by
  rw [upperRunLength_eq_takeWhile, ← takeWhile_word_eq_upper_of_afterRun hafter,
    drop_length_takeWhile]

theorem dropWhile_isWordChar_idem (cs : List Char) :
    (cs.dropWhile isWordChar).dropWhile isWordChar = cs.dropWhile isWordChar := by
  cases hd : cs.dropWhile isWordChar with
  | nil => rfl
  | cons d rest =>
    have : isWordChar ((cs.dropWhile isWordChar).head (by simp [hd])) = false :=
      List.head_dropWhile_not isWordChar cs (by simp [hd])
    simp only [hd, List.head_cons] at this
    simp [List.dropWhile_cons, this]

theorem getD_default_irrel {α : Type} (l : List α) (d d' : α) {n : Nat}
    (h : n < l.length) : l.getD n d = l.getD n d' := by
  simp [List.getD_eq_getElem?_getD, List.getElem?_eq_getElem h]

theorem boundaryBefore_some_upper {c : Char} (h : isUppercaseLetter c = true) :
    boundaryBefore (some c) = false := by
  simp [boundaryBefore, isWordChar_of_upper h]

theorem wordsOf_nil : wordsOf [] = [] := by
  rw [wordsOf]

theorem wordsOf_cons_nonword {c : Char} {rest : List Char}
    (h : isWordChar c = false) : wordsOf (c :: rest) = wordsOf rest := by
  rw [wordsOf]
  simp [h]

theorem wordsOf_cons_word {c : Char} {rest : List Char} (h : isWordChar c = true) :
    wordsOf (c :: rest) =
      ((c :: rest).takeWhile isWordChar) :: wordsOf ((c :: rest).dropWhile isWordChar) := by
  rw [wordsOf]
  simp [h]

theorem matchCountSpec_cons_nonword {c : Char} {rest : List Char}
    (h : isWordChar c = false) : matchCountSpec (c :: rest) = matchCountSpec rest := by
  simp [matchCountSpec, wordsOf_cons_nonword h]

theorem matchCountSpec_cons_word {c : Char} {rest : List Char}
    (h : isWordChar c = true) :
    matchCountSpec (c :: rest) =
      matchCountSpec ((c :: rest).dropWhile isWordChar) +
        (if qualifiesWord ((c :: rest).takeWhile isWordChar) = true then 1 else 0) := by
  simp [matchCountSpec, wordsOf_cons_word h, List.countP_cons]

/-- The scanner emits exactly as many matches as there are qualifying
whole words, provided the fuel covers the text; the second branch of the
`if` accounts for a scan started inside a word (the word the scanner is
inside cannot match). -/
theorem scanMatchesAux_length (fuel : Nat) :
    ∀ (cs : List Char) (i : Nat) (prev : Option Char), cs.length ≤ fuel →
      (scanMatchesAux fuel cs i prev).length =
        (if boundaryBefore prev = true then matchCountSpec cs
         else matchCountSpec (cs.dropWhile isWordChar)) := by
  induction fuel with
  | zero =>
    intro cs i prev hf
    have : cs = [] := List.eq_nil_of_length_eq_zero (Nat.le_zero.mp hf)
    subst this
    simp [scanMatchesAux, matchCountSpec, wordsOf_nil]
  | succ fuel ih =>
    intro cs i prev hf
    match cs with
    | [] => simp [scanMatchesAux, matchCountSpec, wordsOf_nil]
    | c :: rest =>
      rw [scanMatchesAux]
      by_cases hcond : boundaryBefore prev = true ∧ 2 ≤ upperRunLength (c :: rest) ∧
          boundaryAfterRun (List.drop (upperRunLength (c :: rest)) (c :: rest)) = true
      · rw [if_pos hcond]
        obtain ⟨hb, hlen, hafter⟩ := hcond
        have hcup : isUppercaseLetter c = true := by
          have := @upper_of_lt_upperRunLength (c :: rest) 0 (by omega)
          simpa using this
        have hlast : isUppercaseLetter ((c :: rest).getD
            (upperRunLength (c :: rest) - 1) c) = true := by
          rw [getD_default_irrel _ c ' '
            (by have := upperRunLength_le (c :: rest); omega)]
          exact upper_of_lt_upperRunLength (by omega)
        have hdropfuel :
            (List.drop (upperRunLength (c :: rest)) (c :: rest)).length ≤ fuel := by
          rw [List.length_drop]
          simp only [List.length_cons] at hf ⊢
          omega
        rw [List.length_cons,
          ih _ _ _ hdropfuel,
          if_neg (by rw [boundaryBefore_some_upper hlast]; simp),
          drop_upperRunLength_eq_dropWhile hafter,
          dropWhile_isWordChar_idem,
          if_pos hb,
          matchCountSpec_cons_word (isWordChar_of_upper hcup),
          if_pos ((match_cond_iff_qualifies (c :: rest)).mp ⟨hlen, hafter⟩)]
      · rw [if_neg hcond]
        have hfuel : rest.length ≤ fuel := by
          simp only [List.length_cons] at hf
          omega
        rw [ih _ _ _ hfuel]
        by_cases hw : isWordChar c = true
        · rw [if_neg (by simp [boundaryBefore, hw])]
          by_cases hb : boundaryBefore prev = true
          · rw [if_pos hb, matchCountSpec_cons_word hw]
            have hq : qualifiesWord ((c :: rest).takeWhile isWordChar) = false := by
              cases hq : qualifiesWord ((c :: rest).takeWhile isWordChar) with
              | false => rfl
              | true =>
                exact absurd ⟨hb, (match_cond_iff_qualifies (c :: rest)).mpr hq⟩ hcond
            rw [if_neg (by simp [hq]), List.dropWhile_cons_of_pos hw]
            omega
          · rw [if_neg hb, List.dropWhile_cons_of_pos hw]
        · have hw' : isWordChar c = false := by simpa using hw
          rw [if_pos (by simp [boundaryBefore, hw'])]
          by_cases hb : boundaryBefore prev = true
          · rw [if_pos hb, matchCountSpec_cons_nonword hw']
          · rw [if_neg hb, List.dropWhile_cons_of_neg (by simp [hw']),
              matchCountSpec_cons_nonword hw']

theorem matchesOf_length (text : List Char) :
    (matchesOf text).length = matchCountSpec text := by
  simpa [boundaryBefore] using
    scanMatchesAux_length text.length text 0 none le_rfl

/-- C1: `validate(D, S)` returns at most `S.maxFindingCount` findings,
and exactly `min(matchCount(D), S.maxFindingCount)` of them, where
`matchCount` counts the non-overlapping whole-word runs of two or more
consecutive uppercase letters (`matchCountSpec`). -/
theorem validate_count_min (hasRelatedInfoCap : Bool) (doc : TextDocument)
    (settings : StrudelSettings) :
    (validateTextDocument hasRelatedInfoCap doc settings).length =
      min (matchCountSpec doc.text) settings.maxErrorCount ∧
    (validateTextDocument hasRelatedInfoCap doc settings).length ≤
      settings.maxErrorCount := by
  have h : (validateTextDocument hasRelatedInfoCap doc settings).length =
      min settings.maxErrorCount (matchesOf doc.text).length := by
    simp [validateTextDocument]
  rw [matchesOf_length] at h
  omega



theorem getD_drop {α : Type} (l : List α) (i j : Nat) (d : α) :
    (l.drop i).getD j d = l.getD (i + j) d := by
  simp [List.getD_eq_getElem?_getD, List.getElem?_drop]

theorem not_eol_of_upper {c : Char} (h : isUppercaseLetter c = true) :
    isEOLChar c = false := by
  cases he : isEOLChar c with
  | false => rfl
  | true =>
    simp only [isEOLChar, Bool.or_eq_true, beq_iff_eq] at he
    rcases he with rfl | rfl <;> exact absurd h (by decide)

theorem computeLineOffsetsAux_facts (cs : List Char) (base : Nat) :
    (computeLineOffsetsAux cs base).Sorted (· < ·) ∧
    ∀ x ∈ computeLineOffsetsAux cs base, base < x ∧ x ≤ base + cs.length := by
  induction cs, base using computeLineOffsetsAux.induct with
  | case1 i => simp [computeLineOffsetsAux]
  | case2 c i h =>
    simp only [computeLineOffsetsAux, if_pos h]
    refine ⟨List.sorted_singleton _, ?_⟩
    intro x hx
    simp only [List.mem_singleton] at hx
    subst hx
    simp
  | case3 c i h =>
    simp [computeLineOffsetsAux, if_neg h]
  | case4 rest i ih =>
    simp only [computeLineOffsetsAux, if_pos rfl, if_pos rfl]
    refine ⟨List.sorted_cons.mpr ⟨fun b hb => (ih.2 b hb).1, ih.1⟩, ?_⟩
    intro x hx
    rcases List.mem_cons.mp hx with rfl | hx
    · simp only [List.length_cons]
      omega
    · have := ih.2 x hx
      simp only [List.length_cons] at this ⊢
      omega
  | case5 d rest i hd ih =>
    rw [show computeLineOffsetsAux ('\r' :: d :: rest) i =
        (i + 1) :: computeLineOffsetsAux (d :: rest) (i + 1) from by
      simp [computeLineOffsetsAux, hd]]
    refine ⟨List.sorted_cons.mpr ⟨fun b hb => by have := (ih.2 b hb).1; omega, ih.1⟩, ?_⟩
    intro x hx
    rcases List.mem_cons.mp hx with rfl | hx
    · simp only [List.length_cons]
      omega
    · have := ih.2 x hx
      simp only [List.length_cons] at this ⊢
      omega
  | case6 d rest i hd ih =>
    rw [show computeLineOffsetsAux ('\n' :: d :: rest) i =
        (i + 1) :: computeLineOffsetsAux (d :: rest) (i + 1) from by
      simp [computeLineOffsetsAux]]
    refine ⟨List.sorted_cons.mpr ⟨fun b hb => by have := (ih.2 b hb).1; omega, ih.1⟩, ?_⟩
    intro x hx
    rcases List.mem_cons.mp hx with rfl | hx
    · simp only [List.length_cons]
      omega
    · have := ih.2 x hx
      simp only [List.length_cons] at this ⊢
      omega
  | case7 c d rest i hr hn ih =>
    rw [show computeLineOffsetsAux (c :: d :: rest) i =
        computeLineOffsetsAux (d :: rest) (i + 1) from by
      simp [computeLineOffsetsAux, hr, hn]]
    refine ⟨ih.1, ?_⟩
    intro x hx
    have := ih.2 x hx
    simp only [List.length_cons] at this ⊢
    omega



theorem mem_computeLineOffsetsAux (cs : List Char) (base : Nat) :
    ∀ j, j < cs.length →
      (cs.getD j ' ' = '\n' ∨ (cs.getD j ' ' = '\r' ∧ cs.getD (j + 1) ' ' ≠ '\n')) →
      base + j + 1 ∈ computeLineOffsetsAux cs base := by
  induction cs, base using computeLineOffsetsAux.induct with
  | case1 i =>
    intro j hj
    simp at hj
  | case2 c i h =>
    intro j hj hcond
    have hj0 : j = 0 := by simpa using Nat.lt_one_iff.mp (by simpa using hj)
    subst hj0
    simp [computeLineOffsetsAux, h]
  | case3 c i h =>
    intro j hj hcond
    have hj0 : j = 0 := by simpa using Nat.lt_one_iff.mp (by simpa using hj)
    subst hj0
    simp only [List.getD_cons_zero] at hcond
    rcases hcond with hc | ⟨hc, _⟩
    · exact absurd (Or.inr hc) h
    · exact absurd (Or.inl hc) h
  | case4 rest i ih =>
    intro j hj hcond
    match j with
    | 0 =>
      simp only [List.getD_cons_zero, List.getD_cons_succ] at hcond
      rcases hcond with hc | ⟨_, hc⟩
      · exact absurd hc (by decide)
      · exact absurd rfl hc
    | 1 =>
      refine List.mem_cons.mpr (.inl ?_)
      omega
    | k + 2 =>
      simp only [List.getD_cons_succ] at hcond
      simp only [List.length_cons] at hj
      have hmem := ih k (by omega) hcond
      refine List.mem_cons.mpr (.inr ?_)
      have heq : i + (k + 2) + 1 = i + 2 + k + 1 := by omega
      rw [heq]
      exact hmem
  | case5 d rest i hd ih =>
    intro j hj hcond
    rw [show computeLineOffsetsAux ('\r' :: d :: rest) i =
        (i + 1) :: computeLineOffsetsAux (d :: rest) (i + 1) from by
      simp [computeLineOffsetsAux, hd]]
    match j with
    | 0 => exact List.mem_cons.mpr (.inl (by omega))
    | k + 1 =>
      simp only [List.getD_cons_succ] at hcond
      simp only [List.length_cons] at hj
      have hmem := ih k (by simp only [List.length_cons]; omega) hcond
      refine List.mem_cons.mpr (.inr ?_)
      have heq : i + (k + 1) + 1 = i + 1 + k + 1 := by omega
      rw [heq]
      exact hmem
  | case6 d rest i hd ih =>
    intro j hj hcond
    rw [show computeLineOffsetsAux ('\n' :: d :: rest) i =
        (i + 1) :: computeLineOffsetsAux (d :: rest) (i + 1) from by
      simp [computeLineOffsetsAux]]
    match j with
    | 0 => exact List.mem_cons.mpr (.inl (by omega))
    | k + 1 =>
      simp only [List.getD_cons_succ] at hcond
      simp only [List.length_cons] at hj
      have hmem := ih k (by simp only [List.length_cons]; omega) hcond
      refine List.mem_cons.mpr (.inr ?_)
      have heq : i + (k + 1) + 1 = i + 1 + k + 1 := by omega
      rw [heq]
      exact hmem
  | case7 c d rest i hr hn ih =>
    intro j hj hcond
    rw [show computeLineOffsetsAux (c :: d :: rest) i =
        computeLineOffsetsAux (d :: rest) (i + 1) from by
      simp [computeLineOffsetsAux, hr, hn]]
    match j with
    | 0 =>
      simp only [List.getD_cons_zero] at hcond
      rcases hcond with hc | ⟨hc, _⟩
      · exact absurd hc hn
      · exact absurd hc hr
    | k + 1 =>
      simp only [List.getD_cons_succ] at hcond
      simp only [List.length_cons] at hj
      have hmem := ih k (by simp only [List.length_cons]; omega) hcond
      have heq : i + (k + 1) + 1 = i + 1 + k + 1 := by omega
      rw [heq]
      exact hmem



theorem pred_getD_length_takeWhile {α : Type} (p : α → Bool) (l : List α) (d : α)
    (h : (l.takeWhile p).length < l.length) :
    p (l.getD (l.takeWhile p).length d) = false := by
  have hgd : l.getD (l.takeWhile p).length d = (l.dropWhile p).getD 0 d := by
    rw [← drop_length_takeWhile p l, getD_drop]
    simp
  rw [hgd]
  cases hdw : l.dropWhile p with
  | nil =>
    exfalso
    have hlen := congrArg List.length (drop_length_takeWhile p l)
    rw [hdw, List.length_drop] at hlen
    simp only [List.length_nil] at hlen
    omega
  | cons a t =>
    have hh := List.head_dropWhile_not p l (by simp [hdw])
    simp only [hdw, List.head_cons] at hh
    simpa using hh

theorem getLastD_takeWhile_of_mem (l : List Nat) (o : Nat)
    (hs : l.Sorted (· < ·)) (hm : o ∈ l) :
    (l.takeWhile (fun s => decide (s ≤ o))).getLastD 0 = o := by
  induction l with
  | nil => simp at hm
  | cons a rest ih =>
    obtain ⟨ha, hs'⟩ := List.sorted_cons.mp hs
    rcases List.mem_cons.mp hm with rfl | hmem
    · rw [List.takeWhile_cons_of_pos (by simp)]
      have htw : rest.takeWhile (fun s => decide (s ≤ o)) = [] := by
        cases rest with
        | nil => rfl
        | cons b t =>
          rw [List.takeWhile_cons_of_neg]
          have hb := ha b (by simp)
          simp only [decide_eq_true_eq]
          omega
      rw [htw]
      rfl
    · have hao : a < o := ha o hmem
      have ihv := ih hs' hmem
      rw [List.takeWhile_cons_of_pos (by simp; omega)]
      have hne : rest.takeWhile (fun s => decide (s ≤ o)) ≠ [] := by
        intro hnil
        rw [hnil] at ihv
        simp at ihv
        omega
      rw [List.getLastD_cons]
      rw [List.getLastD_eq_getLast?, List.getLast?_eq_getLast _ hne] at ihv ⊢
      simpa using ihv

theorem ensureBeforeEOL_eq (text : List Char) (o lineStart : Nat)
    (h : o ≤ lineStart ∨ isEOLChar (text.getD (o - 1) ' ') = false) :
    ensureBeforeEOL text o lineStart = o := by
  cases o with
  | zero => rfl
  | succ k =>
    rw [ensureBeforeEOL]
    rw [if_neg]
    rintro ⟨h1, h2⟩
    rcases h with h | h
    · omega
    · rw [show k + 1 - 1 = k from rfl] at h
      rw [h] at h2
      cases h2

theorem getD_pred_length_of_leading {α : Type} {l1 l2 : List α} (h : l1 <+: l2)
    (hne : l1 ≠ []) (d : α) : l2.getD (l1.length - 1) d = l1.getLastD d := by
  obtain ⟨t, rfl⟩ := h
  have hpos := List.length_pos.mpr hne
  rw [List.getD_eq_getElem?_getD, List.getElem?_append, if_pos (by omega),
    List.getLastD_eq_getLast?, List.getLast?_eq_getElem?]

theorem offsetAt_positionAt (text : List Char) (o : Nat) (ho : o ≤ text.length)
    (hsafe : isEOLChar (text.getD (o - 1) ' ') = false ∨ o ∈ computeLineOffsets text) :
    offsetAt text (positionAt text o) = o := by
  have hfacts := computeLineOffsetsAux_facts text 0
  have hsorted : (computeLineOffsets text).Sorted (· < ·) :=
    List.sorted_cons.mpr ⟨fun b hb => (hfacts.2 b hb).1, hfacts.1⟩
  have hmin : min o text.length = o := Nat.min_eq_left ho
  have hbne : (computeLineOffsets text).takeWhile (fun s => decide (s ≤ o)) ≠ [] := by
    rw [computeLineOffsets, List.takeWhile_cons_of_pos (by simp)]
    simp
  have hlsbef : ((computeLineOffsets text).takeWhile (fun s => decide (s ≤ o))).getLastD 0 ∈
      (computeLineOffsets text).takeWhile (fun s => decide (s ≤ o)) := by
    rw [List.getLastD_eq_getLast?, List.getLast?_eq_getLast _ hbne]
    exact List.getLast_mem hbne
  have hls_le : ((computeLineOffsets text).takeWhile (fun s => decide (s ≤ o))).getLastD 0 ≤ o := by
    simpa using List.mem_takeWhile_imp hlsbef
  have hensure : ensureBeforeEOL text o
      (((computeLineOffsets text).takeWhile (fun s => decide (s ≤ o))).getLastD 0) = o := by
    rcases hsafe with h | h
    · exact ensureBeforeEOL_eq text o _ (Or.inr h)
    · exact ensureBeforeEOL_eq text o _
        (Or.inl (getLastD_takeWhile_of_mem _ o hsorted h).ge)
  have hpos : positionAt text o =
      ⟨((computeLineOffsets text).takeWhile (fun s => decide (s ≤ o))).length - 1,
        o - ((computeLineOffsets text).takeWhile (fun s => decide (s ≤ o))).getLastD 0⟩ := by
    simp only [positionAt, hmin, hensure]
  rw [hpos]
  have hblen : 1 ≤ ((computeLineOffsets text).takeWhile (fun s => decide (s ≤ o))).length :=
    List.length_pos.mpr hbne
  have hlenle : ((computeLineOffsets text).takeWhile (fun s => decide (s ≤ o))).length ≤
      (computeLineOffsets text).length :=
    ( List.takeWhile_prefix _).sublist.length_le
  have hgetD : (computeLineOffsets text).getD
      (((computeLineOffsets text).takeWhile (fun s => decide (s ≤ o))).length - 1) 0 =
      ((computeLineOffsets text).takeWhile (fun s => decide (s ≤ o))).getLastD 0 :=
    getD_pred_length_of_leading ( List.takeWhile_prefix _) hbne 0
  simp only [offsetAt]
  rw [if_pos (by omega)]
  by_cases hchar : o - ((computeLineOffsets text).takeWhile
      (fun s => decide (s ≤ o))).getLastD 0 = 0
  · rw [if_pos hchar, hgetD]
    omega
  · rw [if_neg hchar, hgetD]
    have harith : ((computeLineOffsets text).takeWhile (fun s => decide (s ≤ o))).getLastD 0 +
        (o - ((computeLineOffsets text).takeWhile (fun s => decide (s ≤ o))).getLastD 0) = o := by
      omega
    rw [harith]
    by_cases hnl : ((computeLineOffsets text).takeWhile (fun s => decide (s ≤ o))).length - 1 + 1 <
        (computeLineOffsets text).length
    · rw [if_pos hnl]
      have hlen1 : ((computeLineOffsets text).takeWhile (fun s => decide (s ≤ o))).length - 1 + 1 =
          ((computeLineOffsets text).takeWhile (fun s => decide (s ≤ o))).length := by
        omega
      have hfail := pred_getD_length_takeWhile (fun s => decide (s ≤ o))
        (computeLineOffsets text) 0 (by omega)
      have hnext_gt : o < (computeLineOffsets text).getD
          ((computeLineOffsets text).takeWhile (fun s => decide (s ≤ o))).length 0 := by
        simpa using hfail
      rw [hlen1, Nat.min_eq_left (Nat.le_of_lt hnext_gt), hensure]
    · rw [if_neg hnl, Nat.min_eq_left ho, hensure]



/-- Every match produced by the scanner lies inside the text, has length
at least 2, consists of uppercase letters, and starts at a word
boundary.  The text-relative hypotheses track how `scanMatchesAux`
recurses on suffixes of the original text. -/
theorem scanMatchesAux_mem (fuel : Nat) :
    ∀ (cs : List Char) (i : Nat) (prev : Option Char) (text : List Char),
      cs.length ≤ fuel → cs = text.drop i → i ≤ text.length →
      ((i = 0 ∧ prev = none) ∨ (0 < i ∧ prev = some (text.getD (i - 1) ' '))) →
      ∀ p ∈ scanMatchesAux fuel cs i prev,
        2 ≤ p.2 ∧ i ≤ p.1 ∧ p.1 + p.2 ≤ text.length ∧
        (∀ j, j < p.2 → isUppercaseLetter (text.getD (p.1 + j) ' ') = true) ∧
        (p.1 = 0 ∨ isWordChar (text.getD (p.1 - 1) ' ') = false) := by
  induction fuel with
  | zero =>
    intro cs i prev text hf hcs hi hprev p hp
    have : cs = [] := List.eq_nil_of_length_eq_zero (Nat.le_zero.mp hf)
    subst this
    simp [scanMatchesAux] at hp
  | succ fuel ih =>
    intro cs i prev text hf hcs hi hprev p hp
    match cs, hcs with
    | [], _ => simp [scanMatchesAux] at hp
    | c :: rest, hcs =>
      have hcslen : (c :: rest).length = text.length - i := by
        rw [hcs, List.length_drop]
      have hilt : i < text.length := by
        simp only [List.length_cons] at hcslen
        omega
      rw [scanMatchesAux] at hp
      by_cases hcond : boundaryBefore prev = true ∧ 2 ≤ upperRunLength (c :: rest) ∧
          boundaryAfterRun (List.drop (upperRunLength (c :: rest)) (c :: rest)) = true
      · rw [if_pos hcond] at hp
        obtain ⟨hb, hlen, hafter⟩ := hcond
        have hrun_le : upperRunLength (c :: rest) ≤ (c :: rest).length :=
          upperRunLength_le (c :: rest)
        rcases List.mem_cons.mp hp with rfl | hp
        · refine ⟨hlen, le_refl _, by omega, ?_, ?_⟩
          · intro j hj
            have : text.getD (i + j) ' ' = (c :: rest).getD j ' ' := by
              rw [hcs, getD_drop]
            rw [this]
            exact upper_of_lt_upperRunLength hj
          · rcases hprev with ⟨hi0, _⟩ | ⟨hipos, hpeq⟩
            · exact Or.inl hi0
            · refine Or.inr ?_
              rw [hpeq] at hb
              simpa [boundaryBefore] using hb
        · have hgen : ∀ j, (c :: rest).getD j ' ' = text.getD (i + j) ' ' := by
            intro j
            rw [hcs, getD_drop]
          have hlast : (c :: rest).getD (upperRunLength (c :: rest) - 1) c =
              text.getD (i + upperRunLength (c :: rest) - 1) ' ' := by
            rw [getD_default_irrel (c :: rest) c ' ' (by omega), hgen,
              show i + (upperRunLength (c :: rest) - 1) =
                i + upperRunLength (c :: rest) - 1 from by omega]
          have hres := ih (List.drop (upperRunLength (c :: rest)) (c :: rest))
            (i + upperRunLength (c :: rest))
            (some ((c :: rest).getD (upperRunLength (c :: rest) - 1) c)) text
            (by rw [List.length_drop]; simp only [List.length_cons] at hf ⊢; omega)
            (by rw [hcs, List.drop_drop])
            (by omega)
            (Or.inr ⟨by omega, by rw [hlast]⟩)
            p hp
          exact ⟨hres.1, by omega, hres.2.2⟩
      · rw [if_neg hcond] at hp
        have hrest : rest = text.drop (i + 1) := by
          have : List.drop 1 (c :: rest) = List.drop 1 (text.drop i) := by rw [← hcs]
          rw [List.drop_drop] at this
          simpa [Nat.add_comm] using this
        have hc : c = text.getD i ' ' := by
          have : text.getD (i + 0) ' ' = (c :: rest).getD 0 ' ' := by
            rw [hcs, getD_drop]
          simpa using this.symm
        have hres := ih rest (i + 1) (some c) text
          (by simp only [List.length_cons] at hf; omega)
          hrest (by omega)
          (Or.inr ⟨by omega, by rw [hc]; congr 1⟩)
          p hp
        exact ⟨hres.1, by omega, hres.2.2⟩

/-- Matches are emitted left to right and do not overlap. -/
theorem scanMatchesAux_pairwise (fuel : Nat) :
    ∀ (cs : List Char) (i : Nat) (prev : Option Char), cs.length ≤ fuel →
      (∀ p ∈ scanMatchesAux fuel cs i prev, i ≤ p.1) ∧
      (scanMatchesAux fuel cs i prev).Pairwise (fun a b => a.1 + a.2 ≤ b.1) := by
  induction fuel with
  | zero =>
    intro cs i prev hf
    have : cs = [] := List.eq_nil_of_length_eq_zero (Nat.le_zero.mp hf)
    subst this
    simp [scanMatchesAux]
  | succ fuel ih =>
    intro cs i prev hf
    match cs with
    | [] => simp [scanMatchesAux]
    | c :: rest =>
      rw [scanMatchesAux]
      by_cases hcond : boundaryBefore prev = true ∧ 2 ≤ upperRunLength (c :: rest) ∧
          boundaryAfterRun (List.drop (upperRunLength (c :: rest)) (c :: rest)) = true
      · rw [if_pos hcond]
        have hfuel : (List.drop (upperRunLength (c :: rest)) (c :: rest)).length ≤ fuel := by
          rw [List.length_drop]
          simp only [List.length_cons] at hf ⊢
          omega
        have hres := ih (List.drop (upperRunLength (c :: rest)) (c :: rest))
          (i + upperRunLength (c :: rest))
          (some ((c :: rest).getD (upperRunLength (c :: rest) - 1) c)) hfuel
        constructor
        · intro p hp
          rcases List.mem_cons.mp hp with rfl | hp
          · exact le_refl _
          · have := hres.1 p hp
            omega
        · refine List.pairwise_cons.mpr ⟨?_, hres.2⟩
          intro b hb
          have := hres.1 b hb
          omega
      · rw [if_neg hcond]
        have hres := ih rest (i + 1) (some c)
          (by simp only [List.length_cons] at hf; omega)
        refine ⟨fun p hp => ?_, hres.2⟩
        have := hres.1 p hp
        omega



theorem matchesOf_facts (text : List Char) :
    ∀ m ∈ matchesOf text,
      2 ≤ m.2 ∧ m.1 + m.2 ≤ text.length ∧
      (∀ j, j < m.2 → isUppercaseLetter (text.getD (m.1 + j) ' ') = true) ∧
      (m.1 = 0 ∨ isWordChar (text.getD (m.1 - 1) ' ') = false) := by
  intro m hm
  have hm' : m ∈ scanMatchesAux text.length text 0 none := hm
  have h := scanMatchesAux_mem text.length text 0 none text le_rfl (by simp)
    (by omega) (Or.inl ⟨rfl, rfl⟩) m hm'
  exact ⟨h.1, h.2.2.1, h.2.2.2⟩

/-- A match's start and end offsets survive the round trip through
`positionAt` and `offsetAt`. -/
theorem decode_match (text : List Char) (m : Nat × Nat) (hm : m ∈ matchesOf text) :
    offsetAt text (positionAt text m.1) = m.1 ∧
    offsetAt text (positionAt text (m.1 + m.2)) = m.1 + m.2 := by
  obtain ⟨h2, hle, hup, hbound⟩ := matchesOf_facts text m hm
  constructor
  · apply offsetAt_positionAt text m.1 (by omega)
    by_cases h0 : m.1 = 0
    · right
      rw [h0, computeLineOffsets]
      exact List.mem_cons_self _ _
    · rcases hbound with h0' | hw
      · exact absurd h0' h0
      · by_cases he : isEOLChar (text.getD (m.1 - 1) ' ') = true
        · right
          have hfirst : isUppercaseLetter (text.getD m.1 ' ') = true := by
            have := hup 0 (by omega)
            simpa using this
          have hjlt : m.1 - 1 < text.length := by omega
          simp only [isEOLChar, Bool.or_eq_true, beq_iff_eq] at he
          have hcond : text.getD (m.1 - 1) ' ' = '\n' ∨
              (text.getD (m.1 - 1) ' ' = '\r' ∧ text.getD (m.1 - 1 + 1) ' ' ≠ '\n') := by
            rcases he with he | he
            · exact Or.inl he
            · refine Or.inr ⟨he, ?_⟩
              rw [show m.1 - 1 + 1 = m.1 from by omega]
              intro hnl
              rw [hnl] at hfirst
              exact absurd hfirst (by decide)
          have hmem := mem_computeLineOffsetsAux text 0 (m.1 - 1) hjlt hcond
          rw [computeLineOffsets]
          refine List.mem_cons.mpr (.inr ?_)
          rw [show m.1 = 0 + (m.1 - 1) + 1 from by omega]
          exact hmem
        · left
          simpa using he
  · apply offsetAt_positionAt text (m.1 + m.2) hle
    left
    have := hup (m.2 - 1) (by omega)
    rw [show m.1 + m.2 - 1 = m.1 + (m.2 - 1) from by omega]
    exact not_eol_of_upper this



/-- C2: findings are returned in left-to-right order of their matches,
and every finding's range, decoded through the document's offset table,
spans exactly the matched substring: the start decodes to the match's
first character, the end to one past its last, and the message is built
from that exact substring. -/
theorem validate_ranges_exact (hasRelatedInfoCap : Bool) (doc : TextDocument)
    (settings : StrudelSettings) :
    (validateTextDocument hasRelatedInfoCap doc settings).Pairwise
      (fun d1 d2 => offsetAt doc.text d1.range.start < offsetAt doc.text d2.range.start) ∧
    (∀ k, k < (validateTextDocument hasRelatedInfoCap doc settings).length →
      offsetAt doc.text ((validateTextDocument hasRelatedInfoCap doc settings).getD k
          defaultDiagnostic).range.start = ((matchesOf doc.text).getD k (0, 0)).1 ∧
      offsetAt doc.text ((validateTextDocument hasRelatedInfoCap doc settings).getD k
          defaultDiagnostic).range.«end» =
        ((matchesOf doc.text).getD k (0, 0)).1 + ((matchesOf doc.text).getD k (0, 0)).2 ∧
      ((validateTextDocument hasRelatedInfoCap doc settings).getD k
          defaultDiagnostic).message =
        String.mk ((doc.text.drop ((matchesOf doc.text).getD k (0, 0)).1).take
          ((matchesOf doc.text).getD k (0, 0)).2) ++ " is all uppercase.") := by
  constructor
  · have hpw : (matchesOf doc.text).Pairwise (fun a b => a.1 + a.2 ≤ b.1) :=
      (scanMatchesAux_pairwise doc.text.length doc.text 0 none le_rfl).2
    have htake : ((matchesOf doc.text).take settings.maxErrorCount).Pairwise
        (fun a b => a.1 + a.2 ≤ b.1) :=
      hpw.sublist (List.take_sublist _ _)
    rw [validateTextDocument, List.pairwise_map]
    refine htake.imp_of_mem ?_
    intro a b ha hb hrel
    have ha' : a ∈ matchesOf doc.text := List.take_subset _ _ ha
    have hb' : b ∈ matchesOf doc.text := List.take_subset _ _ hb
    have hda := (decode_match doc.text a ha').1
    have hdb := (decode_match doc.text b hb').1
    have h2a := (matchesOf_facts doc.text a ha').1
    simp only
    rw [hda, hdb]
    omega
  · intro k hk
    have hklen : k < min settings.maxErrorCount (matchesOf doc.text).length := by
      have : (validateTextDocument hasRelatedInfoCap doc settings).length =
          min settings.maxErrorCount (matchesOf doc.text).length := by
        simp [validateTextDocument]
      omega
    have hkm : k < (matchesOf doc.text).length := by omega
    have hkc : k < settings.maxErrorCount := by omega
    have hsome : (matchesOf doc.text)[k]? = some ((matchesOf doc.text).getD k (0, 0)) := by
      rw [List.getD_eq_getElem?_getD, List.getElem?_eq_getElem hkm]
      rfl
    have hmem : (matchesOf doc.text).getD k (0, 0) ∈ matchesOf doc.text :=
      List.getElem?_mem hsome
    set m : Nat × Nat := (matchesOf doc.text).getD k (0, 0) with hmdef
    have hrange : ((validateTextDocument hasRelatedInfoCap doc settings).getD k
        defaultDiagnostic).range =
        ⟨positionAt doc.text m.1, positionAt doc.text (m.1 + m.2)⟩ := by
      rw [validateTextDocument, List.getD_eq_getElem?_getD, List.getElem?_map,
        List.getElem?_take, if_pos hkc, hsome]
      rfl
    have hmsg : ((validateTextDocument hasRelatedInfoCap doc settings).getD k
        defaultDiagnostic).message =
        String.mk ((doc.text.drop m.1).take m.2) ++ " is all uppercase." := by
      rw [validateTextDocument, List.getD_eq_getElem?_getD, List.getElem?_map,
        List.getElem?_take, if_pos hkc, hsome]
      rfl
    have hdec := decode_match doc.text m hmem
    refine ⟨?_, ?_, hmsg⟩
    · rw [hrange]
      exact hdec.1
    · rw [hrange]
      exact hdec.2

/-! ## Claim theorems: diagnostics pull, settings cache, session state -/

/-- C3: a diagnostics pull request for a URI absent from the document
store returns a successful full report whose item list is empty; the
handler is total, so it never fails. -/
theorem diagnostics_unknown_document (hasRelatedInfoCap : Bool)
    (store : List (String × TextDocument)) (settingsOf : String → StrudelSettings)
    (uri : String) (h : store.lookup uri = none) :
    handleDiagnosticPull hasRelatedInfoCap store settingsOf uri = ⟨.full, []⟩ := by
  unfold handleDiagnosticPull
  rw [h]

theorem diagnostics_unknown_document_witness :
    handleDiagnosticPull false [] (fun _ => defaultSettings) "file:///missing.strudel" =
      ⟨.full, []⟩ :=
  diagnostics_unknown_document false [] (fun _ => defaultSettings)
    "file:///missing.strudel" rfl

/-- C4: with configuration pull supported and no cache entry for `u`,
two `get(u)` calls issued before the first pull resolves cause exactly
one outbound pull (the request counter advances once and the second call
returns the same pending handle without touching the state), and after a
configuration-change notification (which clears the cache) the next
`get(u)` issues a fresh outbound pull. -/
theorem settings_cache_collapses_pulls (st : SessionState) (u : String)
    (hcap : st.hasConfigurationCapability = true)
    (hmiss : st.documentSettings.lookup u = none) :
    (getDocumentSettings st u).1 = .pending st.nextRequestId ∧
    (getDocumentSettings st u).2.nextRequestId = st.nextRequestId + 1 ∧
    (getDocumentSettings (getDocumentSettings st u).2 u).1 = (getDocumentSettings st u).1 ∧
    (getDocumentSettings (getDocumentSettings st u).2 u).2 = (getDocumentSettings st u).2 ∧
    ∀ payload : Option StrudelSettings,
      (getDocumentSettings
          (onDidChangeConfiguration (getDocumentSettings st u).2 payload) u).1 =
        .pending (getDocumentSettings st u).2.nextRequestId ∧
      (getDocumentSettings
          (onDidChangeConfiguration (getDocumentSettings st u).2 payload) u).2.nextRequestId =
        (getDocumentSettings st u).2.nextRequestId + 1 := by
  have h1 : getDocumentSettings st u =
      (.pending st.nextRequestId,
        { st with
            documentSettings := (u, st.nextRequestId) :: st.documentSettings
            nextRequestId := st.nextRequestId + 1 }) := by
    simp [getDocumentSettings, hcap, hmiss]
  rw [h1]
  refine ⟨rfl, rfl, ?_, ?_, ?_⟩
  · simp [getDocumentSettings, hcap, List.lookup]
  · simp [getDocumentSettings, hcap, List.lookup]
  · intro payload
    constructor <;> simp [onDidChangeConfiguration, getDocumentSettings, hcap, List.lookup]

theorem settings_cache_collapses_pulls_witness :
    (getDocumentSettings
        (initialState ⟨some ⟨some true, none⟩, none⟩) "file:///a.strudel").1 =
      .pending (initialState ⟨some ⟨some true, none⟩, none⟩).nextRequestId ∧
    (getDocumentSettings
        (initialState ⟨some ⟨some true, none⟩, none⟩) "file:///a.strudel").2.nextRequestId =
      (initialState ⟨some ⟨some true, none⟩, none⟩).nextRequestId + 1 :=
  have h := settings_cache_collapses_pulls
    (initialState ⟨some ⟨some true, none⟩, none⟩) "file:///a.strudel" rfl rfl
  ⟨h.1, h.2.1⟩

/-- C5: without the negotiated related-information capability no finding
carries a related-information field; with it every finding carries
exactly the two fixed advisory entries, each located at the finding's
own range. -/
theorem validate_related_information (doc : TextDocument) (settings : StrudelSettings) :
    (∀ d ∈ validateTextDocument false doc settings, d.relatedInformation = none) ∧
    (∀ d ∈ validateTextDocument true doc settings,
      d.relatedInformation = some
        [⟨⟨doc.uri, d.range⟩, "Spelling matters"⟩,
         ⟨⟨doc.uri, d.range⟩, "Especially for names"⟩]) := by
  constructor <;>
  · intro d hd
    rw [validateTextDocument] at hd
    obtain ⟨m, _, rfl⟩ := List.mem_map.mp hd
    simp

theorem validate_related_information_witness :
    ((validateTextDocument false ⟨"file:///b.strudel", "AB".toList⟩
        defaultSettings).getD 0 defaultDiagnostic).relatedInformation = none ∧
    ((validateTextDocument true ⟨"file:///b.strudel", "AB".toList⟩
        defaultSettings).getD 0 defaultDiagnostic).relatedInformation =
      some
        [⟨⟨"file:///b.strudel",
            ((validateTextDocument true ⟨"file:///b.strudel", "AB".toList⟩
              defaultSettings).getD 0 defaultDiagnostic).range⟩, "Spelling matters"⟩,
         ⟨⟨"file:///b.strudel",
            ((validateTextDocument true ⟨"file:///b.strudel", "AB".toList⟩
              defaultSettings).getD 0 defaultDiagnostic).range⟩, "Especially for names"⟩] :=
  ⟨(validate_related_information ⟨"file:///b.strudel", "AB".toList⟩ defaultSettings).1
      _ (by decide),
   (validate_related_information ⟨"file:///b.strudel", "AB".toList⟩ defaultSettings).2
      _ (by decide)⟩

/-- C6: an initialization payload with an absent `workspace` field (or
absent capability sub-fields) negotiates every affected flag to `false`;
negotiation is a total function, so no payload raises an error. -/
theorem negotiate_absent_defaults (caps : ClientCapabilities) :
    ((caps.workspace = none ∨ caps.workspace = some ⟨none, none⟩) →
      (initialState caps).hasWorkspaceFolderCapability = false ∧
      (initialState caps).hasConfigurationCapability = false) ∧
    ((caps.textDocument = none ∨
      (∃ td, caps.textDocument = some td ∧ (td.publishDiagnostics = none ∨
        ∃ pd, td.publishDiagnostics = some pd ∧ pd.relatedInformation = none))) →
      (initialState caps).hasDiagnosticRelatedInformationCapability = false) := by
  constructor
  · rintro (h | h) <;>
      simp [initialState, negotiateConfiguration, negotiateWorkspaceFolder, h]
  · rintro (h | ⟨td, htd, h | ⟨pd, hpd, h⟩⟩) <;>
      simp [initialState, negotiateRelatedInformation, *]

theorem negotiate_absent_defaults_witness :
    (initialState ⟨none, none⟩).hasWorkspaceFolderCapability = false ∧
    (initialState ⟨none, none⟩).hasConfigurationCapability = false ∧
    (initialState ⟨none, none⟩).hasDiagnosticRelatedInformationCapability = false :=
  have h := negotiate_absent_defaults ⟨none, none⟩
  ⟨(h.1 (Or.inl rfl)).1, (h.1 (Or.inl rfl)).2, h.2 (Or.inl rfl)⟩

/-- C7: validating `"let ABC = 1;"` under the default settings (cap 100)
yields exactly one finding with message `"ABC is all uppercase."`,
severity warning, source `"strudel"`, whose range decodes to character
offsets 4 to 7. -/
theorem scenario_single_finding :
    ∀ hasRelatedInfoCap : Bool,
      (validateTextDocument hasRelatedInfoCap
        ⟨"file:///demo.strudel", "let ABC = 1;".toList⟩ defaultSettings).length = 1 ∧
      ((validateTextDocument hasRelatedInfoCap
        ⟨"file:///demo.strudel", "let ABC = 1;".toList⟩ defaultSettings).getD 0
          defaultDiagnostic).message = "ABC is all uppercase." ∧
      ((validateTextDocument hasRelatedInfoCap
        ⟨"file:///demo.strudel", "let ABC = 1;".toList⟩ defaultSettings).getD 0
          defaultDiagnostic).range = ⟨⟨0, 4⟩, ⟨0, 7⟩⟩ ∧
      offsetAt ("let ABC = 1;".toList)
        ((validateTextDocument hasRelatedInfoCap
          ⟨"file:///demo.strudel", "let ABC = 1;".toList⟩ defaultSettings).getD 0
            defaultDiagnostic).range.start = 4 ∧
      offsetAt ("let ABC = 1;".toList)
        ((validateTextDocument hasRelatedInfoCap
          ⟨"file:///demo.strudel", "let ABC = 1;".toList⟩ defaultSettings).getD 0
            defaultDiagnostic).range.«end» = 7 ∧
      ((validateTextDocument hasRelatedInfoCap
        ⟨"file:///demo.strudel", "let ABC = 1;".toList⟩ defaultSettings).getD 0
          defaultDiagnostic).severity = .warning ∧
      ((validateTextDocument hasRelatedInfoCap
        ⟨"file:///demo.strudel", "let ABC = 1;".toList⟩ defaultSettings).getD 0
          defaultDiagnostic).source = "strudel" := by
  intro hasRelatedInfoCap
  cases hasRelatedInfoCap <;> decide

/-- C8: resolving a completion candidate whose opaque identifier is not
in the recognised set `{1, 2}` returns the candidate unchanged. -/
theorem resolve_unknown_identifier (item : CompletionItem)
    (h1 : item.data ≠ some 1) (h2 : item.data ≠ some 2) :
    onCompletionResolve item = item := by
  unfold onCompletionResolve
  rw [if_neg h1, if_neg h2]

theorem resolve_unknown_identifier_witness :
    onCompletionResolve ⟨"Other", some 1, some 3, none, none⟩ =
      ⟨"Other", some 1, some 3, none, none⟩ :=
  resolve_unknown_identifier ⟨"Other", some 1, some 3, none, none⟩
    (by decide) (by decide)

theorem step_preserves_configurationCapability (st : SessionState) (e : Event) :
    (step st e).hasConfigurationCapability = st.hasConfigurationCapability := by
  cases e with
  | didChangeConfiguration payload =>
    by_cases h : st.hasConfigurationCapability = true <;>
      simp [step, onDidChangeConfiguration, h]
  | getSettings u =>
    by_cases h : st.hasConfigurationCapability = false
    · simp [step, getDocumentSettings, h]
    · cases hl : st.documentSettings.lookup u <;>
        simp [step, getDocumentSettings, h, hl]
  | didClose u => simp [step, onDidClose]

theorem step_preserves_empty_cache (st : SessionState) (e : Event)
    (hcap : st.hasConfigurationCapability = false)
    (hempty : st.documentSettings = []) : (step st e).documentSettings = [] := by
  cases e with
  | didChangeConfiguration payload => simp [step, onDidChangeConfiguration, hcap, hempty]
  | getSettings u => simp [step, getDocumentSettings, hcap, hempty]
  | didClose u => simp [step, onDidClose, hempty]

/-- C9: in every reachable session state the configuration-pull flag
decides which settings source is authoritative: when it is `false` the
cache has never been written (it is empty) and every lookup returns the
global settings without touching the state; when it is `true` every
lookup is answered by a pending handle, the cached one when present and
a fresh pull otherwise, never by the global settings. -/
theorem settings_authority_invariant (caps : ClientCapabilities) (evs : List Event) :
    ((evs.foldl step (initialState caps)).hasConfigurationCapability = false →
      (evs.foldl step (initialState caps)).documentSettings = [] ∧
      ∀ u, getDocumentSettings (evs.foldl step (initialState caps)) u =
        (.resolved (evs.foldl step (initialState caps)).globalSettings,
          evs.foldl step (initialState caps))) ∧
    ((evs.foldl step (initialState caps)).hasConfigurationCapability = true →
      ∀ u, (getDocumentSettings (evs.foldl step (initialState caps)) u).1 =
        .pending (((evs.foldl step (initialState caps)).documentSettings.lookup u).getD
          (evs.foldl step (initialState caps)).nextRequestId)) := by
  constructor
  · intro hcap
    have hempty : ∀ (l : List Event) (st : SessionState),
        st.hasConfigurationCapability = false → st.documentSettings = [] →
        (l.foldl step st).documentSettings = [] := by
      intro l
      induction l with
      | nil => intro st _ h; exact h
      | cons e t ih =>
        intro st hc he
        exact ih (step st e) (by rw [step_preserves_configurationCapability, hc])
          (step_preserves_empty_cache st e hc he)
    refine ⟨hempty evs (initialState caps) ?_ rfl, ?_⟩
    · have : ∀ (l : List Event) (st : SessionState),
          (l.foldl step st).hasConfigurationCapability = st.hasConfigurationCapability := by
        intro l
        induction l with
        | nil => intro st; rfl
        | cons e t ih =>
          intro st
          rw [List.foldl_cons, ih, step_preserves_configurationCapability]
      rw [← this evs (initialState caps)]
      exact hcap
    · intro u
      simp [getDocumentSettings, hcap]
  · intro hcap u
    cases hl : (evs.foldl step (initialState caps)).documentSettings.lookup u <;>
      simp [getDocumentSettings, hcap, hl]

theorem settings_authority_invariant_witness :
    getDocumentSettings (([] : List Event).foldl step (initialState ⟨none, none⟩))
        "file:///c.strudel" =
      (.resolved (([] : List Event).foldl step (initialState ⟨none, none⟩)).globalSettings,
        ([] : List Event).foldl step (initialState ⟨none, none⟩)) :=
  ((settings_authority_invariant ⟨none, none⟩ []).1 rfl).2 "file:///c.strudel"

/-- C10: without the configuration capability, a configuration-change
notification replaces the global settings by the notification's payload
(or the default settings when it is absent), and every subsequent lookup
for any URI returns exactly that value. -/
theorem config_change_updates_global (st : SessionState)
    (payload : Option StrudelSettings) (hcap : st.hasConfigurationCapability = false) :
    (onDidChangeConfiguration st payload).globalSettings = payload.getD defaultSettings ∧
    ∀ u, getDocumentSettings (onDidChangeConfiguration st payload) u =
      (.resolved (payload.getD defaultSettings), onDidChangeConfiguration st payload) := by
  have hcap' : (onDidChangeConfiguration st payload).hasConfigurationCapability = false := by
    simp [onDidChangeConfiguration, hcap]
  have hglob : (onDidChangeConfiguration st payload).globalSettings =
      payload.getD defaultSettings := by
    simp [onDidChangeConfiguration, hcap]
  refine ⟨hglob, fun u => ?_⟩
  rw [getDocumentSettings, if_pos hcap', hglob]

theorem config_change_updates_global_witness :
    getDocumentSettings
        (onDidChangeConfiguration (initialState ⟨none, none⟩) (some ⟨7⟩))
        "file:///d.strudel" =
      (.resolved (StrudelSettings.mk 7),
        onDidChangeConfiguration (initialState ⟨none, none⟩) (some ⟨7⟩)) :=
  (config_change_updates_global (initialState ⟨none, none⟩) (some ⟨7⟩) rfl).2
    "file:///d.strudel"

/-- Witness for C2 at a concrete document with one match. -/
theorem validate_ranges_exact_witness :
    offsetAt (TextDocument.mk "file:///w.strudel" ("AB".toList)).text
        ((validateTextDocument false (TextDocument.mk "file:///w.strudel" ("AB".toList))
          defaultSettings).getD 0 defaultDiagnostic).range.start =
      ((matchesOf (TextDocument.mk "file:///w.strudel" ("AB".toList)).text).getD 0 (0, 0)).1 ∧
    offsetAt (TextDocument.mk "file:///w.strudel" ("AB".toList)).text
        ((validateTextDocument false (TextDocument.mk "file:///w.strudel" ("AB".toList))
          defaultSettings).getD 0 defaultDiagnostic).range.«end» =
      ((matchesOf (TextDocument.mk "file:///w.strudel" ("AB".toList)).text).getD 0 (0, 0)).1 +
        ((matchesOf (TextDocument.mk "file:///w.strudel" ("AB".toList)).text).getD 0 (0, 0)).2 ∧
    ((validateTextDocument false (TextDocument.mk "file:///w.strudel" ("AB".toList))
        defaultSettings).getD 0 defaultDiagnostic).message =
      String.mk (((TextDocument.mk "file:///w.strudel" ("AB".toList)).text.drop
          ((matchesOf (TextDocument.mk "file:///w.strudel"
            ("AB".toList)).text).getD 0 (0, 0)).1).take
        ((matchesOf (TextDocument.mk "file:///w.strudel"
          ("AB".toList)).text).getD 0 (0, 0)).2) ++ " is all uppercase." :=
  (validate_ranges_exact false (TextDocument.mk "file:///w.strudel" ("AB".toList))
    defaultSettings).2 0 (by decide)

end Strudel
